import Mathlib

/-!
Verification of the `inferrer` automaton module (files
`inferrer/automaton/automaton.py` and `inferrer/automaton/nfa.py`)
against its natural-language specification.

The Python classes are shallowly embedded: Python sets become lists used
up to membership, `dict` / `OrderedDict` become association lists,
`defaultdict` access is modelled explicitly, raised exceptions become an
explicit `PyError` value, and unbounded `while` loops take a fuel
parameter (`none` = the loop did not finish within the fuel).
-/

namespace Inferrer

/-- Modelled from the spec: the `State` class (`inferrer/automaton/state.py`
is not among the sources).  Per the spec a State is an identity object
carrying a string label, and state equality is label equality. -/
structure State where
  name : String
deriving DecidableEq, Repr

/-- A transition label: Python passes plain strings; `""` is the ε label. -/
abbrev Sym := String

/-- The Python exceptions that the embedded code can raise:
`ValueError` (add_transition on an off-alphabet symbol), `KeyError`
(missing dict key), `StopIteration` (`next` on an empty iterator) and
`TypeError`. -/
inductive PyError
  | valueError
  | keyError
  | stopIteration
  | typeError
deriving DecidableEq, Repr

/-! ### Association lists: the embedding of Python dict / OrderedDict -/

/-- Lookup in an association list (first matching key, like a dict). -/
def alook {α β : Type} [DecidableEq α] : List (α × β) → α → Option β
  | [], _ => none
  | (k', v) :: rest, k => if k' = k then some v else alook rest k

/-- `d[k] = v` on an association list: replace the value of an existing
key in place, or append a new binding (OrderedDict update semantics). -/
def aupd {α β : Type} [DecidableEq α] (k : α) (v : β) : List (α × β) → List (α × β)
  | [] => [(k, v)]
  | (k', v') :: rest => if k' = k then (k, v) :: rest else (k', v') :: aupd k v rest

/-- Python `set.add` on a list used as a set. -/
def insertSt {α : Type} [DecidableEq α] (x : α) (l : List α) : List α :=
  if x ∈ l then l else l ++ [x]

/-! ### The deterministic automaton (`class Automaton`, automaton.py)

Modelled from the spec where the sources are silent: `inferrer/automaton/dfa.py`
(the `DFA` class used by `NFA.to_dfa`) is not among the sources; per the
spec the DFA component is exactly the deterministic automaton whose
operations `automaton.py` defines, so `DFA(alphabet, start)` is embedded
as an `Automaton` with the given alphabet and start state. -/

structure Automaton where
  alphabet : List Sym
  start : State
  states : List State
  acceptStates : List State
  rejectStates : List State
  transitions : List (State × List (Sym × State))
deriving DecidableEq, Repr

/-- `Automaton.__init__(alphabet, start_state=State(''))`. -/
def Automaton.init (alphabet : List Sym) (start : State := State.mk "") : Automaton :=
  ⟨alphabet, start, [start], [], [], []⟩

/-- `Automaton.add_transition(q1, q2, a)`: raises `ValueError` if `a` is
not in the alphabet; otherwise `states.update({q1, q2})` and
`transitions[q1][a] = q2` (outer `defaultdict`, inner `OrderedDict`). -/
def Automaton.add_transition (d : Automaton) (q1 q2 : State) (a : Sym) :
    Except PyError Automaton :=
  if a ∈ d.alphabet then
    .ok { d with
      states := insertSt q2 (insertSt q1 d.states),
      transitions :=
        aupd q1 (aupd a q2 ((alook d.transitions q1).getD [])) d.transitions }
  else .error .valueError

/-- `delta(q, a)` as a pure lookup (no defaultdict side effect). -/
def dlookup (d : Automaton) (q : State) (a : Sym) : Option State :=
  (alook d.transitions q).bind fun m => alook m a

/-- `Automaton.transition_exists(q1, a)`: `q1 in transitions and
a in transitions[q1] and transitions[q1][a] in states` (pure `in` checks,
no insertion). -/
def Automaton.transition_exists (d : Automaton) (q : State) (a : Sym) : Bool :=
  match alook d.transitions q with
  | none => false
  | some m =>
    match alook m a with
    | none => false
    | some t => decide (t ∈ d.states)

/-- `Automaton.transition(q1, a)` with the mutation made explicit:
`self._transitions[q1][a]` first accesses the outer `defaultdict` (which
inserts an empty inner dict when `q1` is absent) and then indexes the
inner dict (raising `KeyError` when `a` is absent).  Returns the possibly
mutated automaton together with the result. -/
def Automaton.transitionM (d : Automaton) (q : State) (a : Sym) :
    Automaton × Except PyError State :=
  match alook d.transitions q with
  | some m =>
    (d, match alook m a with
        | some t => .ok t
        | none => .error .keyError)
  | none => ({ d with transitions := d.transitions ++ [(q, [])] }, .error .keyError)

/-- The loop body of `Automaton.parse_string`, from the current state. -/
def Automaton.parseFrom (d : Automaton) (q : State) : List Sym → State × Bool
  | [] => (q, decide (q ∈ d.acceptStates))
  | a :: rest =>
    match alook d.transitions q with
    | none => (q, false)
    | some m =>
      match alook m a with
      | none => (q, false)
      | some t => if t ∈ d.states then d.parseFrom t rest else (q, false)

/-- `Automaton.parse_string(s)`: feed `s` through δ from the start state;
stop with `(q, False)` at the first step where `transition_exists` fails,
otherwise return the final state and its membership in the accept set. -/
def Automaton.parse_string (d : Automaton) (s : List Sym) : State × Bool :=
  d.parseFrom d.start s

/-- `Automaton.parse_string` with the state of the automaton threaded
through every dict access, so that mutation (the `defaultdict` side
effect of `transition`) is visible in the type. -/
def Automaton.parseFromM (d : Automaton) (q : State) :
    List Sym → Automaton × Except PyError (State × Bool)
  | [] => (d, .ok (q, decide (q ∈ d.acceptStates)))
  | a :: rest =>
    if d.transition_exists q a then
      match d.transitionM q a with
      | (d', .ok t) => d'.parseFromM t rest
      | (d', .error e) => (d', .error e)
    else (d, .ok (q, false))

/-- Mutation-aware `parse_string`. -/
def Automaton.parse_stringM (d : Automaton) (s : List Sym) :
    Automaton × Except PyError (State × Bool) :=
  d.parseFromM d.start s

/-! ### `Automaton.minimize` -/

/-- The inner `for a in self._alphabet` loop of `minimize`: when
`state in self._transitions and a in self._transitions[state]` the
transition is copied into the minimized automaton and the unvisited
target is pushed (Python `list.append`: at the end of the stack). -/
def minimizeInner (d : Automaton) (state : State) :
    List Sym → Automaton → List State → List State →
    Except PyError (Automaton × List State × List State)
  | [], acc, stack, visited => .ok (acc, stack, visited)
  | a :: rest, acc, stack, visited =>
    match dlookup d state a with
    | none => minimizeInner d state rest acc stack visited
    | some toState => do
      let acc' ← acc.add_transition state toState a
      if toState ∈ visited then
        minimizeInner d state rest acc' stack visited
      else
        minimizeInner d state rest acc' (stack ++ [toState]) (visited ++ [toState])

/-- The `while stack:` loop of `minimize`.  `stack.pop()` removes the
last element.  `none` means the fuel ran out. -/
def minimizeLoop (d : Automaton) :
    Nat → Automaton → List State → List State → Option (Except PyError Automaton)
  | 0, _, _, _ => none
  | fuel + 1, acc, stack, visited =>
    match stack.getLast? with
    | none => some (.ok acc)
    | some state =>
      let acc1 := { acc with states := insertSt state acc.states }
      match minimizeInner d state d.alphabet acc1 stack.dropLast visited with
      | .error e => some (.error e)
      | .ok (acc2, stack', visited') =>
        let acc3 :=
          if state ∈ d.acceptStates then
            { acc2 with acceptStates := insertSt state acc2.acceptStates }
          else if state ∈ d.rejectStates then
            { acc2 with rejectStates := insertSt state acc2.rejectStates }
          else acc2
        minimizeLoop d fuel acc3 stack' visited'

/-- `Automaton.minimize()`: iterative depth-first exploration.  Note
that the source seeds both the stack and the visited set with the
hard-coded `State('')`, not with `self._start_state`, and that the fresh
`Automaton(self._alphabet)` it fills also starts at `State('')`. -/
def Automaton.minimize (d : Automaton) (fuel : Nat) : Option (Except PyError Automaton) :=
  minimizeLoop d fuel (Automaton.init d.alphabet) [State.mk ""] [State.mk ""]

/-! ### `build_pta` and the `utils` helpers -/

/-- All prefixes of a string, from `""` up to the string itself. -/
def strPrefixes (w : String) : List String :=
  (List.range (w.length + 1)).map fun k => String.mk (w.toList.take k)

/-- Modelled from the spec: `utils.determine_alphabet` (the `inferrer.utils`
module is not among the sources).  Per the spec the alphabet inference
utility returns the set of symbols occurring in the samples; each symbol
is a single atomic token. -/
def determine_alphabet (samples : List String) : List Sym :=
  (samples.flatMap fun w => w.toList.map fun c => String.mk [c]).dedup

/-- Modelled from the spec: `utils.prefix_set` (the `inferrer.utils` module
is not among the sources).  Per the spec glossary, a prefix is any string
`u` such that some observed string can be written as `uv`; `prefix_set`
returns all prefixes of the sample strings.  The alphabet argument is
part of the source call signature but plays no role in the set. -/
def prefix_set (samples : List String) (_alphabet : List Sym) : List String :=
  (samples.flatMap strPrefixes).dedup

/-- The `for u in states: for a in alphabet:` loop of `build_pta`:
collects `new_states` (one-letter extensions that are not already known
states) and adds the transition `delta(u, a) = ua` for every pair. -/
def ptaMain (alphabet : List Sym) (statesP : List State) (pta0 : Automaton) :
    Except PyError (Automaton × List State) :=
  statesP.foldlM
    (fun (p : Automaton × List State) u =>
      alphabet.foldlM
        (fun (p2 : Automaton × List State) a =>
          let ua := State.mk (u.name ++ a)
          let news := if ua ∈ statesP then p2.2 else insertSt ua p2.2
          (p2.1.add_transition u ua a).map fun d => (d, news))
        p)
    (pta0, [])

/-- `build_pta(s_plus, s_minus)` (automaton.py, lines 195-238): seed an
automaton over the inferred alphabet, add `δ('', letter) = letter` for
every letter, add `δ(u, a) = ua` for every `u` in the prefix set while
collecting the one-letter extensions that are not prefixes, then replace
the state set with prefixes plus extensions and classify accept/reject
states by membership of their names in `S⁺` / `S⁻`. -/
def build_pta (sPlus sMinus : List String) : Except PyError Automaton :=
  let samples := (sPlus ++ sMinus).dedup
  let alphabet := determine_alphabet samples
  let pta0 := Automaton.init alphabet
  match alphabet.foldlM
      (fun acc letter => acc.add_transition (State.mk "") (State.mk letter) letter)
      pta0 with
  | .error e => .error e
  | .ok pta1 =>
    let statesP := (prefix_set samples alphabet).map State.mk
    match ptaMain alphabet statesP pta1 with
    | .error e => .error e
    | .ok (pta2, newStates) =>
      let statesAll := newStates.foldl (fun acc q => insertSt q acc) statesP
      .ok { pta2 with
        states := statesAll,
        acceptStates := statesAll.filter fun u => decide (u.name ∈ sPlus),
        rejectStates := statesAll.filter fun u => decide (u.name ∈ sMinus) }

/-- Every transition the PTA builder records maps a pair `(q, a)` to the
state named `q.name ++ a`. -/
def CanonTrans (d : Automaton) : Prop :=
  ∀ q a t, dlookup d q a = some t → t = State.mk (q.name ++ a)

/-! ### The non-deterministic automaton (`class NFA`, nfa.py)

`inferrer/automaton/fsa.py` is not among the sources; per the spec it
only carries the alphabet, which is embedded as a plain field. -/

structure NFA where
  alphabet : List Sym
  startStates : List State
  states : List State
  acceptStates : List State
  transitions : List (State × List (Sym × List State))
deriving DecidableEq, Repr

/-- `NFA.__init__(alphabet)`. -/
def NFA.init (alphabet : List Sym) : NFA := ⟨alphabet, [], [], [], []⟩

/-- `self._transitions[q]` read through the `defaultdict`: absent keys
behave as an empty mapping (the insertion it performs is not observable
through any lookup of the NFA code). -/
def NFA.trans (n : NFA) (q : State) : List (Sym × List State) :=
  (alook n.transitions q).getD []

/-- `delta(q, a)` as the set of targets, empty when the entry is absent. -/
def NFA.delta (n : NFA) (q : State) (a : Sym) : List State :=
  (alook (n.trans q) a).getD []

/-- `NFA.add_transition(q1, q2, a)`: raises `ValueError` when
`a not in alphabet and a != ''`; otherwise ensures the inner entry and
adds `q2` to the set `delta(q1, a)`.  It does not touch `self._states`. -/
def NFA.add_transition (n : NFA) (q1 q2 : State) (a : Sym) : Except PyError NFA :=
  if a ∉ n.alphabet ∧ a ≠ "" then .error .valueError
  else
    .ok { n with
      transitions :=
        aupd q1 (aupd a (insertSt q2 (n.delta q1 a)) (n.trans q1)) n.transitions }

/-- `NFA.add_state(state)`. -/
def NFA.add_state (n : NFA) (q : State) : NFA :=
  { n with states := insertSt q n.states }

/-- `NFA.add_accepting_state(state)`. -/
def NFA.add_accepting_state (n : NFA) (q : State) : NFA :=
  { n with acceptStates := insertSt q n.acceptStates }

/-- `NFA.add_start_state(state)`: registers the state if new, then adds
it to the start set. -/
def NFA.add_start_state (n : NFA) (q : State) : NFA :=
  { n with states := insertSt q n.states, startStates := insertSt q n.startStates }

/-- `NFA.get_states()`. -/
def NFA.get_states (n : NFA) : List State := n.states

/-- `NFA.transition(q1, a)`: `self._transitions[q1][a]`.  The outer
access is a `defaultdict` (never fails); the inner index raises
`KeyError` when the symbol has no entry for that state. -/
def NFA.transition (n : NFA) (q : State) (a : Sym) : Except PyError (List State) :=
  match alook (n.trans q) a with
  | some l => .ok l
  | none => .error .keyError

/-- A configuration of the `parse_string` work stack: (state, input index). -/
abbrev Config := State × Nat

/-- The configurations pushed when `(q, i)` is popped with `i < len(s)`:
for every `(symbol, to_states)` entry of `transitions[q]` and every
`to_state`, an ε edge pushes `(to_state, i)` and a matching symbol edge
pushes `(to_state, i + 1)`. -/
def succConfigs (n : NFA) (s : List Sym) (q : State) (i : Nat) : List Config :=
  (n.trans q).flatMap fun p =>
    p.2.filterMap fun t =>
      if p.1 = "" then some (t, i)
      else if s.get? i = some p.1 then some (t, i + 1) else none

/-- The `while len(stack) > 0` loop of `NFA.parse_string` for one start
state.  Python pushes with `append` and pops the last element; the
embedding keeps the top of the stack at the head, so the successors are
pushed reversed.  Result: `some (some q)` = returned `(q, True)`,
`some none` = stack exhausted, `none` = fuel ran out (the source loop
need not terminate). -/
def nfaLoop (n : NFA) (s : List Sym) : List Config → Nat → Option (Option State)
  | _, 0 => none
  | [], _ + 1 => some none
  | (q, i) :: rest, fuel + 1 =>
    if i = s.length then
      if q ∈ n.acceptStates then some (some q) else nfaLoop n s rest fuel
    else
      nfaLoop n s ((succConfigs n s q i).reverse ++ rest) fuel

/-- The `for start_state in self._start_states:` loop of `parse_string`. -/
def nfaParseGo (n : NFA) (s : List Sym) : List State → Nat → Option (Option State)
  | [], _ => some none
  | start :: rest, fuel =>
    match nfaLoop n s [(start, 0)] fuel with
    | none => none
    | some (some q) => some (some q)
    | some none => nfaParseGo n s rest fuel

/-- `NFA.parse_string(s)`: depth-first search from each start state in
turn; on exhaustion `return next(iter(self._start_states)), False`,
which raises `StopIteration` when the start set is empty. -/
def NFA.parse_string (n : NFA) (s : List Sym) (fuel : Nat) :
    Option (Except PyError (State × Bool)) :=
  match nfaParseGo n s n.startStates fuel with
  | none => none
  | some (some q) => some (.ok (q, true))
  | some none =>
    match n.startStates with
    | [] => some (.error .stopIteration)
    | q :: _ => some (.ok (q, false))

/-! ### `NFA._epsilon_closure` and `NFA.to_dfa` -/

/-- The `while len(stack) > 0` loop of `_epsilon_closure`: pop the last
element, follow `nfa.transition(state, '')` (which raises `KeyError`
when the state has no ε entry), and push unseen targets. -/
def epsLoop (n : NFA) : Nat → List State → List State → Option (Except PyError (List State))
  | 0, _, _ => none
  | fuel + 1, closure, stack =>
    match stack.getLast? with
    | none => some (.ok closure)
    | some state =>
      match n.transition state "" with
      | .error e => some (.error e)
      | .ok tos =>
        let p := tos.foldl
          (fun (p : List State × List State) t =>
            if t ∈ p.1 then p else (p.1 ++ [t], p.2 ++ [t]))
          (closure, stack.dropLast)
        epsLoop n fuel p.1 p.2

/-- `NFA._epsilon_closure(nfa, q)`. -/
def NFA.epsilon_closure (n : NFA) (q : State) (fuel : Nat) :
    Option (Except PyError (List State)) :=
  epsLoop n fuel [q] [q]

/-- `NFA._power_set(q)`: `chain(combinations(q, r) for r in 0..len(q))`,
so the empty subset comes first. -/
def powerSet (l : List State) : List (List State) :=
  (List.range (l.length + 1)).flatMap fun r => List.sublistsLen r l

/-- The preprocessing of `to_dfa`: with more than one start state, copy
the NFA, add a fresh `__q0__` state with an ε-transition to every
current start, and make it the only start. -/
def toDfaStartFix (n : NFA) : Except PyError NFA :=
  if n.startStates.length > 1 then do
    let newQ := State.mk "__q0__"
    let cpy0 := { n with states := insertSt newQ n.states }
    let cpy1 ← n.startStates.foldlM (fun acc q => acc.add_transition newQ q "") cpy0
    return { cpy1 with startStates := [newQ] }
  else .ok n

/-- The subset-transition table built by `to_dfa`: keys are subsets of
NFA states, values map symbols to sets of states. -/
abbrev SubsetTrans := List (List State × List (Sym × List State))

/-- One `for a in cpy.alphabet:` step of the `for r in q_prime:` loop.
The first statement, `transitions[r][a] = set()`, indexes the plain dict
`transitions` at `r` before any entry for `r` exists, so it raises
`KeyError` whenever `r` is not yet a key; only then would the targets
`ε-closure(cpy.transition(state, a))` be accumulated. -/
def toDfaInnerA (cpy : NFA) (fuel : Nat) (r : List State) (tbl : SubsetTrans)
    (a : Sym) : Option (Except PyError SubsetTrans) :=
  match alook tbl r with
  | none => some (.error .keyError)
  | some m =>
    let step : Except (Option PyError) (List State) := r.foldlM
      (fun (acc : List State) state =>
        match cpy.transition state a with
        | .error e => .error (some e)
        | .ok tss =>
          tss.foldlM
            (fun (acc2 : List State) ts =>
              match cpy.epsilon_closure ts fuel with
              | none => .error none
              | some (.error e) => .error (some e)
              | some (.ok cl) => .ok (cl.foldl (fun l t => insertSt t l) acc2))
            acc)
      ([] : List State)
    match step with
    | .error none => none
    | .error (some e) => some (.error e)
    | .ok targets => some (.ok (aupd r (aupd a targets m) tbl))

/-- The body of `for r in q_prime:`: run the alphabet loop, then add `r`
to `accept_prime` when it contains an accepting NFA state. -/
def toDfaLoop (cpy : NFA) (fuel : Nat) :
    List (List State) → SubsetTrans → List (List State) →
    Option (Except PyError (SubsetTrans × List (List State)))
  | [], tbl, acceptPrime => some (.ok (tbl, acceptPrime))
  | r :: rs, tbl, acceptPrime =>
    let inner : Except (Option PyError) SubsetTrans := cpy.alphabet.foldlM
      (fun (t : SubsetTrans) a =>
        match toDfaInnerA cpy fuel r t a with
        | none => .error none
        | some (.error e) => .error (some e)
        | some (.ok t') => .ok t')
      tbl
    match inner with
    | .error none => none
    | .error (some e) => some (.error e)
    | .ok tbl' =>
      let acceptPrime' :=
        if r.any (fun s => decide (s ∈ cpy.acceptStates)) then acceptPrime ++ [r]
        else acceptPrime
      toDfaLoop cpy fuel rs tbl' acceptPrime'

/-- `''.join(map(lambda q: q.name, qs))`. -/
def joinNames (qs : List State) : String :=
  String.join (qs.map State.name)

/-- `NFA.to_dfa()` (nfa.py, lines 149-197), embedded statement by
statement.  `q_prime` is the power set of `self._states` (the original
ones, even after the start-state fix).  After the loop the source sets
`dfa.states` from the already exhausted `q_prime` generator, which joins
nothing and yields `{State('')}`; the final `for q, a in
transitions.items()` unpacks each (subset, inner-dict) item as `(q, a)`
and evaluates `transitions[q][a]` with the inner dict as key, raising
`TypeError` whenever the table is non-empty. -/
def NFA.to_dfa (n : NFA) (fuel : Nat) : Option (Except PyError Automaton) :=
  match toDfaStartFix n with
  | .error e => some (.error e)
  | .ok cpy =>
    let qPrime := powerSet n.states
    match cpy.startStates.head? with
    | none => some (.error .stopIteration)
    | some q0 =>
      match cpy.epsilon_closure q0 fuel with
      | none => none
      | some (.error e) => some (.error e)
      | some (.ok q0cl) =>
        match toDfaLoop cpy fuel qPrime [] [] with
        | none => none
        | some (.error e) => some (.error e)
        | some (.ok (trans, acceptPrime)) =>
          let dfa0 : Automaton :=
            { Automaton.init n.alphabet (State.mk (joinNames q0cl)) with
              states := [State.mk ""],
              acceptStates := acceptPrime.map fun r => State.mk (joinNames r) }
          if trans.isEmpty then dfa0.minimize fuel
          else some (.error .typeError)

/-! ### Declarative relations used to state the claims -/

/-- The chain of defined transitions the DFA parser follows:
`DSteps d q u p` means that reading `u` from `q` is possible (every step
passes the `transition_exists` check) and ends at `p`. -/
inductive DSteps (d : Automaton) : State → List Sym → State → Prop
  | nil (q : State) : DSteps d q [] q
  | cons {q : State} {a : Sym} {t : State} {u : List Sym} {p : State} :
      dlookup d q a = some t → t ∈ d.states → DSteps d t u p → DSteps d q (a :: u) p

/-- One step of the configuration graph that `NFA.parse_string`
explores: a popped configuration is expanded only while its input index
differs from `|s|`. -/
def cStep (n : NFA) (s : List Sym) (c c' : Config) : Prop :=
  c.2 ≠ s.length ∧ c' ∈ succConfigs n s c.1 c.2

/-- A run of the ε-NFA in the sense of the specification: it consumes
exactly the given word, ε-transitions advance the state without
consuming input (at any point, including after the last symbol), and
symbol transitions consume one symbol. -/
inductive NfaRun (n : NFA) : State → List Sym → State → Prop
  | nil (q : State) : NfaRun n q [] q
  | eps {q q' : State} {w : List Sym} {q'' : State} :
      q' ∈ n.delta q "" → NfaRun n q' w q'' → NfaRun n q w q''
  | step {q : State} {a : Sym} {q' : State} {w : List Sym} {q'' : State} :
      a ≠ "" → q' ∈ n.delta q a → NfaRun n q' w q'' → NfaRun n q (a :: w) q''

/-! ### Concrete instances evaluated by the claims -/

/-- A fresh DFA over `{a}` (start state `State('')`). -/
def dfaAdd0 : Automaton := Automaton.init ["a"]

/-- The DFA after `add_transition(State('x'), State('y'), 'a')`. -/
def dfaAddRes : Automaton :=
  match dfaAdd0.add_transition (State.mk "x") (State.mk "y") "a" with
  | .ok d => d
  | .error _ => dfaAdd0

/-- A two-state DFA over `{a}` with `δ('', a) = t` and accept state `t`. -/
def dfaTwo : Automaton :=
  ⟨["a"], State.mk "", [State.mk "", State.mk "t"], [State.mk "t"], [],
    [(State.mk "", [("a", State.mk "t")])]⟩

/-- A DFA whose start state is `State('x')` (not the default `State('')`)
with `F = {x}` and no transitions. -/
def dfaStartX : Automaton :=
  ⟨["a"], State.mk "x", [State.mk "x"], [State.mk "x"], [], []⟩

/-- What `dfaStartX.minimize()` returns. -/
def dfaStartXMin : Automaton :=
  match dfaStartX.minimize 5 with
  | some (.ok m) => m
  | _ => Automaton.init []

/-- An NFA over `{a}` with a single start state `q0` carrying an
ε-self-loop, so that the ε-closure of `q0` is computable and `to_dfa`
reaches its subset loop. -/
def nfaSubsetEx : NFA :=
  ⟨["a"], [State.mk "q0"], [State.mk "q0"], [],
    [(State.mk "q0", [("", [State.mk "q0"])])]⟩

/-- An NFA over `{a}` whose single state `q0` has no transitions at all. -/
def nfaNoEps : NFA := ⟨["a"], [State.mk "q0"], [State.mk "q0"], [], []⟩

/-- An NFA over `{a}` with start `q0`, an ε-transition `q0 → qf` and
accept state `qf`. -/
def nfaEpsEnd : NFA :=
  ⟨["a"], [State.mk "q0"], [State.mk "q0", State.mk "qf"], [State.mk "qf"],
    [(State.mk "q0", [("", [State.mk "qf"])])]⟩

/-- An NFA over `{a}` with start `q0`, transition `q0 —a→ q1` and accept
state `q1`. -/
def nfaOneStep : NFA :=
  ⟨["a"], [State.mk "q0"], [State.mk "q0", State.mk "q1"], [State.mk "q1"],
    [(State.mk "q0", [("a", [State.mk "q1"])])]⟩

/-- A fresh NFA over `{a}`: its start-state set is empty. -/
def nfaNoStart : NFA := NFA.init ["a"]

/-- The NFA after `add_transition(State('q1'), State('q2'), 'a')` on a
fresh NFA. -/
def nfaAddRes : NFA :=
  match (NFA.init ["a"]).add_transition (State.mk "q1") (State.mk "q2") "a" with
  | .ok m => m
  | .error _ => NFA.init []

/-- What `build_pta({'a'}, {})` returns. -/
def ptaEx : Automaton :=
  match build_pta ["a"] [] with
  | .ok p => p
  | .error _ => Automaton.init []

/-! ### Association-list lemmas -/

theorem alook_aupd_self {α β : Type} [DecidableEq α] (k : α) (v : β)
    (l : List (α × β)) : alook (aupd k v l) k = some v := by
  induction l with
  | nil => simp [aupd, alook]
  | cons p rest ih =>
    obtain ⟨k', v'⟩ := p
    by_cases h : k' = k
    · simp [aupd, h, alook]
    · simp [aupd, h, alook, ih]

theorem alook_aupd_ne {α β : Type} [DecidableEq α] {k k' : α} (h : k' ≠ k)
    (v : β) (l : List (α × β)) : alook (aupd k v l) k' = alook l k' := by
  induction l with
  | nil => simp [aupd, alook, h.symm]
  | cons p rest ih =>
    obtain ⟨k'', v'⟩ := p
    by_cases hk : k'' = k
    · subst hk
      simp [aupd, alook, h.symm]
    · by_cases hk' : k'' = k'
      · subst hk'
        simp [aupd, alook, hk]
      · simp [aupd, alook, hk, hk', ih]

theorem mem_insertSt {α : Type} [DecidableEq α] {x y : α} {l : List α} :
    y ∈ insertSt x l ↔ y = x ∨ y ∈ l := by
  by_cases h : x ∈ l
  · simp only [insertSt, if_pos h]
    exact ⟨Or.inr, fun hy => hy.elim (fun e => e ▸ h) id⟩
  · simp only [insertSt, if_neg h, List.mem_append, List.mem_singleton]
    exact or_comm

/-! ### Lemmas about `Automaton.add_transition` -/

theorem add_transition_eq {d : Automaton} {q1 q2 : State} {a : Sym}
    (h : a ∈ d.alphabet) :
    d.add_transition q1 q2 a = .ok
      { d with
        states := insertSt q2 (insertSt q1 d.states),
        transitions :=
          aupd q1 (aupd a q2 ((alook d.transitions q1).getD [])) d.transitions } := by
  simp [Automaton.add_transition, h]

theorem add_transition_error_iff (d : Automaton) (q1 q2 : State) (a : Sym) :
    (∃ e, d.add_transition q1 q2 a = .error e) ↔ a ∉ d.alphabet := by
  by_cases h : a ∈ d.alphabet <;> simp [Automaton.add_transition, h]

theorem dlookup_add_self {d : Automaton} {q1 q2 : State} {a : Sym} {d' : Automaton}
    (h : a ∈ d.alphabet) (hok : d.add_transition q1 q2 a = .ok d') :
    dlookup d' q1 a = some q2 := by
  rw [add_transition_eq h] at hok
  cases hok
  simp [dlookup, alook_aupd_self]

theorem dlookup_add_other {d : Automaton} {q1 q2 : State} {a : Sym} {d' : Automaton}
    (h : a ∈ d.alphabet) (hok : d.add_transition q1 q2 a = .ok d')
    {q : State} {b : Sym} (hne : ¬(q = q1 ∧ b = a)) :
    dlookup d' q b = dlookup d q b := by
  rw [add_transition_eq h] at hok
  cases hok
  by_cases hq : q = q1
  · subst hq
    have hb : b ≠ a := fun e => hne ⟨rfl, e⟩
    simp only [dlookup, alook_aupd_self, Option.bind_some, alook_aupd_ne hb]
    cases hm : alook d.transitions q with
    | none => simp [hm, alook, Ne.symm hb]
    | some m => simp [hm, alook_aupd_ne hb]
  · simp [dlookup, alook_aupd_ne hq]

theorem mem_states_add {d : Automaton} {q1 q2 : State} {a : Sym} {d' : Automaton}
    (h : a ∈ d.alphabet) (hok : d.add_transition q1 q2 a = .ok d') (q : State) :
    q ∈ d'.states ↔ q = q1 ∨ q = q2 ∨ q ∈ d.states := by
  rw [add_transition_eq h] at hok
  cases hok
  simp only [mem_insertSt]
  tauto

theorem add_transition_fields {d : Automaton} {q1 q2 : State} {a : Sym} {d' : Automaton}
    (h : a ∈ d.alphabet) (hok : d.add_transition q1 q2 a = .ok d') :
    d'.alphabet = d.alphabet ∧ d'.start = d.start
      ∧ d'.acceptStates = d.acceptStates ∧ d'.rejectStates = d.rejectStates := by
  rw [add_transition_eq h] at hok
  cases hok
  exact ⟨rfl, rfl, rfl, rfl⟩

/-! ### Lemmas about `Automaton.parse_string` -/

theorem parseFromM_pure (d : Automaton) :
    ∀ (s : List Sym) (q : State), d.parseFromM q s = (d, .ok (d.parseFrom q s)) := by
  intro s
  induction s with
  | nil => intro q; rfl
  | cons a rest ih =>
    intro q
    cases h1 : alook d.transitions q with
    | none =>
      simp [Automaton.parseFromM, Automaton.parseFrom, Automaton.transition_exists, h1]
    | some m =>
      cases h2 : alook m a with
      | none =>
        simp [Automaton.parseFromM, Automaton.parseFrom, Automaton.transition_exists, h1, h2]
      | some t =>
        by_cases h3 : t ∈ d.states
        · simp [Automaton.parseFromM, Automaton.parseFrom, Automaton.transition_exists,
            Automaton.transitionM, h1, h2, h3, ih]
        · simp [Automaton.parseFromM, Automaton.parseFrom, Automaton.transition_exists,
            Automaton.transitionM, h1, h2, h3]

theorem parseFrom_char (d : Automaton) :
    ∀ (s : List Sym) (q : State),
      (∃ pre a post p, s = pre ++ a :: post ∧ DSteps d q pre p
        ∧ d.transition_exists p a = false ∧ d.parseFrom q s = (p, false))
      ∨ (∃ p, DSteps d q s p
          ∧ d.parseFrom q s = (p, decide (p ∈ d.acceptStates))) := by
  intro s
  induction s with
  | nil => intro q; exact Or.inr ⟨q, DSteps.nil q, rfl⟩
  | cons a rest ih =>
    intro q
    cases h1 : alook d.transitions q with
    | none =>
      refine Or.inl ⟨[], a, rest, q, rfl, DSteps.nil q, ?_, ?_⟩
      · simp [Automaton.transition_exists, h1]
      · simp [Automaton.parseFrom, h1]
    | some m =>
      cases h2 : alook m a with
      | none =>
        refine Or.inl ⟨[], a, rest, q, rfl, DSteps.nil q, ?_, ?_⟩
        · simp [Automaton.transition_exists, h1, h2]
        · simp [Automaton.parseFrom, h1, h2]
      | some t =>
        by_cases h3 : t ∈ d.states
        · have hd : dlookup d q a = some t := by simp [dlookup, h1, h2]
          rcases ih t with ⟨pre, b, post, p, hs, hst, htx, hp⟩ | ⟨p, hst, hp⟩
          · refine Or.inl ⟨a :: pre, b, post, p, by simp [hs], DSteps.cons hd h3 hst, htx, ?_⟩
            simp [Automaton.parseFrom, h1, h2, h3, hp]
          · refine Or.inr ⟨p, DSteps.cons hd h3 hst, ?_⟩
            simp [Automaton.parseFrom, h1, h2, h3, hp]
        · refine Or.inl ⟨[], a, rest, q, rfl, DSteps.nil q, ?_, ?_⟩
          · simp [Automaton.transition_exists, h1, h2, h3]
          · simp [Automaton.parseFrom, h1, h2, h3]

theorem parseFrom_mem (d : Automaton) :
    ∀ (s : List Sym) (q : State), q ∈ d.states → (d.parseFrom q s).1 ∈ d.states := by
  intro s
  induction s with
  | nil => intro q hq; exact hq
  | cons a rest ih =>
    intro q hq
    cases h1 : alook d.transitions q with
    | none => simpa [Automaton.parseFrom, h1] using hq
    | some m =>
      cases h2 : alook m a with
      | none => simpa [Automaton.parseFrom, h1, h2] using hq
      | some t =>
        by_cases h3 : t ∈ d.states
        · simpa [Automaton.parseFrom, h1, h2, h3] using ih t h3
        · simpa [Automaton.parseFrom, h1, h2, h3] using hq

/-! ### Claim theorems: the DFA operations -/

/-- C7: `Automaton.add_transition(q1, q2, a)` raises exactly when
`a ∉ Σ`; otherwise it adds `q1` and `q2` to `Q` and sets
`δ(q1, a) = q2`, replacing any previously recorded target and leaving
every other `(state, symbol)` entry and every other field unchanged, so
at most one target per `(state, symbol)` ever exists. -/
theorem dfa_add_transition_spec (d : Automaton) (q1 q2 : State) (a : Sym) :
    ((∃ e, d.add_transition q1 q2 a = .error e) ↔ a ∉ d.alphabet)
    ∧ (∀ d', d.add_transition q1 q2 a = .ok d' →
        dlookup d' q1 a = some q2
        ∧ (∀ q, q ∈ d'.states ↔ q = q1 ∨ q = q2 ∨ q ∈ d.states)
        ∧ (∀ q b, ¬(q = q1 ∧ b = a) → dlookup d' q b = dlookup d q b)
        ∧ d'.alphabet = d.alphabet ∧ d'.start = d.start
        ∧ d'.acceptStates = d.acceptStates ∧ d'.rejectStates = d.rejectStates) := by
  refine ⟨add_transition_error_iff d q1 q2 a, fun d' hok => ?_⟩
  have h : a ∈ d.alphabet := by
    by_contra h
    simp [Automaton.add_transition, h] at hok
  exact ⟨dlookup_add_self h hok, mem_states_add h hok,
    fun q b hne => dlookup_add_other h hok hne,
    (add_transition_fields h hok).1, (add_transition_fields h hok).2.1,
    (add_transition_fields h hok).2.2.1, (add_transition_fields h hok).2.2.2⟩

/-- Witness for C7 at a concrete input. -/
theorem dfa_add_transition_spec_witness :
    dlookup dfaAddRes (State.mk "x") "a" = some (State.mk "y") :=
  ((dfa_add_transition_spec dfaAdd0 (State.mk "x") (State.mk "y") "a").2
    dfaAddRes rfl).1

/-- C9: `Automaton.parse_string` is observation-only: with the automaton
threaded through every dict access, parsing returns the automaton
unchanged (and the same result as the pure parser, with no exception). -/
theorem dfa_parse_string_pure (d : Automaton) (s : List Sym) :
    d.parse_stringM s = (d, .ok (d.parse_string s)) :=
  parseFromM_pure d s d.start

/-- C4: DFA parsing is total and returns the reached state: either `s`
splits as `pre ++ a :: post` where δ is defined along `pre` from `q₀`
and `transition_exists` fails at `a`, and the parser returns that
intermediate state with `false`; or δ is defined along all of `s` and
the parser returns the final state `q` with `q ∈ F`.  When `q₀ ∈ Q` the
returned state is in `Q`. -/
theorem dfa_parse_total_correct (d : Automaton) (s : List Sym) :
    ((∃ pre a post q, s = pre ++ a :: post ∧ DSteps d d.start pre q
        ∧ d.transition_exists q a = false ∧ d.parse_string s = (q, false))
      ∨ (∃ q, DSteps d d.start s q
          ∧ d.parse_string s = (q, decide (q ∈ d.acceptStates))))
    ∧ (d.start ∈ d.states → (d.parse_string s).1 ∈ d.states) :=
  ⟨parseFrom_char d s d.start, fun h => parseFrom_mem d s d.start h⟩

/-- Witness for C4 at a concrete input. -/
theorem dfa_parse_total_correct_witness :
    (dfaTwo.parse_string ["a"]).1 ∈ dfaTwo.states :=
  (dfa_parse_total_correct dfaTwo ["a"]).2 (by decide)

/-- C2 (code-bug evidence): `minimize` seeds its depth-first search with
the hard-coded `State('')` instead of the start state.  On a DFA whose
start state is `State('x')` with `F = {x}`, the original parses the
empty string to `(x, True)` while the minimized automaton loses state
`x` entirely, starts at `State('')` and parses the empty string to
`(State(''), False)`. -/
theorem minimize_roots_at_empty_state :
    dfaStartX.minimize 5 = some (.ok dfaStartXMin)
    ∧ dfaStartX.parse_string [] = (State.mk "x", true)
    ∧ dfaStartXMin.parse_string [] = (State.mk "", false)
    ∧ State.mk "x" ∉ dfaStartXMin.states
    ∧ dfaStartXMin.start = State.mk "" :=
  ⟨rfl, by decide, by decide, by decide, rfl⟩

/-! ### Claim theorems: the NFA operations -/

/-- C5 (amended): `NFA.add_transition(q1, q2, a)` with `a ∈ Σ ∪ {ε}`
appends `q2` to `δ(q1, a)` but leaves the state set returned by
`get_states()` unchanged — it does not register the target. -/
theorem nfa_add_transition_no_register (n : NFA) (q1 q2 : State) (a : Sym)
    (h : a ∈ n.alphabet ∨ a = "") :
    ∃ n', n.add_transition q1 q2 a = .ok n'
      ∧ q2 ∈ n'.delta q1 a ∧ n'.get_states = n.get_states := by
  have hc : ¬(a ∉ n.alphabet ∧ a ≠ "") := by tauto
  simp only [NFA.add_transition, if_neg hc]
  exact ⟨_, rfl, by simp [NFA.delta, NFA.trans, alook_aupd_self, mem_insertSt], rfl⟩

/-- Witness for C5's amended theorem at a concrete input. -/
theorem nfa_add_transition_no_register_witness :
    ∃ n', (NFA.init ["a"]).add_transition (State.mk "q1") (State.mk "q2") "a" = .ok n'
      ∧ State.mk "q2" ∈ n'.delta (State.mk "q1") "a"
      ∧ n'.get_states = (NFA.init ["a"]).get_states :=
  nfa_add_transition_no_register (NFA.init ["a"]) (State.mk "q1") (State.mk "q2") "a"
    (Or.inl (by decide))

/-- C5 counterexample: after a successful `add_transition` on a fresh
NFA the target `q2` is in `δ(q1, a)` but not in `get_states()`, so the
claimed state-registration invariant fails. -/
theorem nfa_add_transition_cex :
    (NFA.init ["a"]).add_transition (State.mk "q1") (State.mk "q2") "a" = .ok nfaAddRes
    ∧ State.mk "q2" ∈ nfaAddRes.delta (State.mk "q1") "a"
    ∧ State.mk "q2" ∉ nfaAddRes.get_states :=
  ⟨rfl, by decide, by decide⟩

/-- C10: when the start-state set is empty, `parse_string` always raises
(`next(iter(set()))` raises `StopIteration`); with a non-empty start set
this error branch is unreachable: no error is ever returned. -/
theorem nfa_parse_requires_start (n : NFA) (s : List Sym) (fuel : Nat) :
    (n.startStates = [] → n.parse_string s fuel = some (.error .stopIteration))
    ∧ (n.startStates ≠ [] → ∀ e, n.parse_string s fuel ≠ some (.error e)) := by
  constructor
  · intro h
    simp [NFA.parse_string, h, nfaParseGo]
  · intro h e
    cases hgo : nfaParseGo n s n.startStates fuel with
    | none => simp [NFA.parse_string, hgo]
    | some o =>
      cases o with
      | some q => simp [NFA.parse_string, hgo]
      | none =>
        cases hs : n.startStates with
        | nil => exact absurd hs h
        | cons q rest =>
          rw [hs] at hgo
          simp [NFA.parse_string, hs, hgo]

/-- Witness for C10 at concrete inputs. -/
theorem nfa_parse_requires_start_witness :
    nfaNoStart.parse_string [] 3 = some (.error .stopIteration)
    ∧ nfaOneStep.parse_string [] 3 ≠ some (.error PyError.stopIteration) :=
  ⟨(nfa_parse_requires_start nfaNoStart [] 3).1 rfl,
   (nfa_parse_requires_start nfaOneStep [] 3).2 (by decide) PyError.stopIteration⟩

/-! ### The NFA work-stack search (C3) -/

theorem nfaLoop_sound {n : NFA} {s : List Sym} :
    ∀ {fuel : Nat} {stack : List Config} {q : State},
      nfaLoop n s stack fuel = some (some q) →
      ∃ c ∈ stack, Relation.ReflTransGen (cStep n s) c (q, s.length)
        ∧ q ∈ n.acceptStates := by
  intro fuel
  induction fuel with
  | zero => intro stack q h; simp [nfaLoop] at h
  | succ k ih =>
    intro stack q h
    cases stack with
    | nil => simp [nfaLoop] at h
    | cons c rest =>
      obtain ⟨p, i⟩ := c
      by_cases hi : i = s.length
      · by_cases hp : p ∈ n.acceptStates
        · have hq : p = q := by
            simp only [nfaLoop, if_pos hi, if_pos hp, Option.some.injEq] at h
            exact h
          subst hq
          exact ⟨(p, i), List.mem_cons_self _ _, by rw [hi], hp⟩
        · rw [nfaLoop, if_pos hi, if_neg hp] at h
          obtain ⟨c, hc, hr, ha⟩ := ih h
          exact ⟨c, List.mem_cons_of_mem _ hc, hr, ha⟩
      · rw [nfaLoop, if_neg hi] at h
        obtain ⟨c, hc, hr, ha⟩ := ih h
        rcases List.mem_append.1 hc with hc1 | hc2
        · exact ⟨(p, i), List.mem_cons_self _ _,
            Relation.ReflTransGen.head ⟨hi, List.mem_reverse.1 hc1⟩ hr, ha⟩
        · exact ⟨c, List.mem_cons_of_mem _ hc2, hr, ha⟩

theorem nfaLoop_exhaust {n : NFA} {s : List Sym} :
    ∀ {fuel : Nat} {stack : List Config},
      nfaLoop n s stack fuel = some none →
      ∀ c ∈ stack, ∀ q ∈ n.acceptStates,
        ¬ Relation.ReflTransGen (cStep n s) c (q, s.length) := by
  intro fuel
  induction fuel with
  | zero => intro stack h; simp [nfaLoop] at h
  | succ k ih =>
    intro stack h
    cases stack with
    | nil => intro c hc; simp at hc
    | cons c0 rest =>
      obtain ⟨p, i⟩ := c0
      intro c hc q hq hreach
      by_cases hi : i = s.length
      · by_cases hp : p ∈ n.acceptStates
        · simp [nfaLoop, if_pos hi, if_pos hp] at h
        · rw [nfaLoop, if_pos hi, if_neg hp] at h
          rcases List.mem_cons.1 hc with rfl | hc'
          · rcases hreach.cases_head with heq | ⟨c', hstep, _⟩
            · have : p = q ∧ i = s.length := by
                constructor <;> [exact congrArg Prod.fst heq; exact congrArg Prod.snd heq]
              exact hp (this.1 ▸ hq)
            · exact hstep.1 hi
          · exact ih h c hc' q hq hreach
      · rw [nfaLoop, if_neg hi] at h
        rcases List.mem_cons.1 hc with rfl | hc'
        · rcases hreach.cases_head with heq | ⟨c', hstep, htail⟩
          · exact hi (congrArg Prod.snd heq)
          · exact ih h c' (List.mem_append.2 (Or.inl (List.mem_reverse.2 hstep.2)))
              q hq htail
        · exact ih h c (List.mem_append.2 (Or.inr hc')) q hq hreach

theorem nfaParseGo_sound {n : NFA} {s : List Sym} {fuel : Nat} :
    ∀ {starts : List State} {q : State},
      nfaParseGo n s starts fuel = some (some q) →
      q ∈ n.acceptStates
        ∧ ∃ q0 ∈ starts, Relation.ReflTransGen (cStep n s) (q0, 0) (q, s.length) := by
  intro starts
  induction starts with
  | nil => intro q h; simp [nfaParseGo] at h
  | cons st rest ih =>
    intro q h
    rw [nfaParseGo] at h
    cases hloop : nfaLoop n s [(st, 0)] fuel with
    | none => rw [hloop] at h; exact absurd h (by simp)
    | some o =>
      rw [hloop] at h
      cases o with
      | some q' =>
        have hq : q' = q := by simpa using h
        subst hq
        obtain ⟨c, hc, hr, ha⟩ := nfaLoop_sound hloop
        have hc0 : c = (st, 0) := by simpa using hc
        subst hc0
        exact ⟨ha, st, List.mem_cons_self _ _, hr⟩
      | none =>
        obtain ⟨ha, q0, hq0, hr⟩ := ih h
        exact ⟨ha, q0, List.mem_cons_of_mem _ hq0, hr⟩

theorem nfaParseGo_exhaust {n : NFA} {s : List Sym} {fuel : Nat} :
    ∀ {starts : List State},
      nfaParseGo n s starts fuel = some none →
      ∀ q0 ∈ starts, ∀ q ∈ n.acceptStates,
        ¬ Relation.ReflTransGen (cStep n s) (q0, 0) (q, s.length) := by
  intro starts
  induction starts with
  | nil => intro _ q0 hq0; simp at hq0
  | cons st rest ih =>
    intro h q0 hq0 q hq hreach
    rw [nfaParseGo] at h
    cases hloop : nfaLoop n s [(st, 0)] fuel with
    | none => rw [hloop] at h; exact absurd h (by simp)
    | some o =>
      rw [hloop] at h
      cases o with
      | some q' => exact absurd h (by simp)
      | none =>
        rcases List.mem_cons.1 hq0 with rfl | hq0'
        · exact nfaLoop_exhaust hloop (q0, 0) (List.mem_singleton_self _) q hq hreach
        · exact ih h q0 hq0' q hq hreach

/-- C3 (amended): whenever the work-stack search of `NFA.parse_string`
terminates, it returns `(q, true)` for some accept state `q` exactly
when some start state reaches, in the code's configuration graph (where
ε-moves advance the state without advancing the index but are explored
only while the index is below `|s|`), a configuration `(qf, |s|)` with
`qf` accepting; otherwise it returns some start state with `false`. -/
theorem nfa_parse_search_correct (n : NFA) (s : List Sym) (fuel : Nat)
    (r : Except PyError (State × Bool)) (hr : n.parse_string s fuel = some r)
    (hstart : n.startStates ≠ []) :
    ((∃ q, r = .ok (q, true)) ↔
      ∃ q0 ∈ n.startStates, ∃ qf ∈ n.acceptStates,
        Relation.ReflTransGen (cStep n s) (q0, 0) (qf, s.length))
    ∧ (∀ q, r = .ok (q, true) → q ∈ n.acceptStates
        ∧ ∃ q0 ∈ n.startStates,
            Relation.ReflTransGen (cStep n s) (q0, 0) (q, s.length))
    ∧ (∀ q b, r = .ok (q, b) → b = false → q ∈ n.startStates) := by
  unfold NFA.parse_string at hr
  cases hgo : nfaParseGo n s n.startStates fuel with
  | none => rw [hgo] at hr; exact absurd hr (by simp)
  | some o =>
    rw [hgo] at hr
    cases o with
    | some q =>
      have hr' : r = .ok (q, true) := (Option.some.inj hr).symm
      obtain ⟨ha, q0, hq0, hreach⟩ := nfaParseGo_sound hgo
      subst hr'
      refine ⟨⟨fun _ => ⟨q0, hq0, q, ha, hreach⟩, fun _ => ⟨q, rfl⟩⟩, ?_, ?_⟩
      · intro q' hq'
        have : q' = q := by simpa using hq'.symm
        subst this
        exact ⟨ha, q0, hq0, hreach⟩
      · intro q' b hq' hb
        have : q = q' ∧ true = b := by simpa using hq'
        rw [← this.2] at hb
        exact absurd hb (by simp)
    | none =>
      cases hs : n.startStates with
      | nil => exact absurd hs hstart
      | cons q0 rest =>
        rw [hs] at hr hgo
        have hr' : r = .ok (q0, false) := (Option.some.inj hr).symm
        subst hr'
        have hex := nfaParseGo_exhaust hgo
        refine ⟨⟨?_, ?_⟩, ?_, ?_⟩
        · rintro ⟨q', hq'⟩
          simp at hq'
        · rintro ⟨p0, hp0, qf, hqf, hreach⟩
          exact absurd hreach (hex p0 hp0 qf hqf)
        · intro q' hq'
          simp at hq'
        · intro q' b hq' _
          have hqq : q0 = q' ∧ false = b := by simpa using hq'
          exact hqq.1 ▸ List.mem_cons_self q0 rest

/-- C3 counterexample: on `nfaEpsEnd` with the empty input there is a
run in the claim's sense (`q0 —ε→ qf` with `qf ∈ F`, consuming exactly
the empty string) but the parser returns `(q0, False)`: the search never
follows ε-transitions once the input index has reached `|s|` (and,
separately, it need not terminate at all on ε-cycles). -/
theorem nfa_parse_eps_at_end_cex :
    nfaEpsEnd.parse_string [] 5 = some (.ok (State.mk "q0", false))
    ∧ NfaRun nfaEpsEnd (State.mk "q0") [] (State.mk "qf")
    ∧ State.mk "qf" ∈ nfaEpsEnd.acceptStates
    ∧ State.mk "q0" ∈ nfaEpsEnd.startStates :=
  ⟨rfl, NfaRun.eps (by decide) (NfaRun.nil _), by decide, by decide⟩

/-- Witness for C3's amended theorem at a concrete input. -/
theorem nfa_parse_search_correct_witness :
    ∃ q0 ∈ nfaOneStep.startStates, ∃ qf ∈ nfaOneStep.acceptStates,
      Relation.ReflTransGen (cStep nfaOneStep ["a"]) (q0, 0)
        (qf, (["a"] : List Sym).length) :=
  ((nfa_parse_search_correct nfaOneStep ["a"] 5 (.ok (State.mk "q1", true)) rfl
      (by decide)).1).1 ⟨State.mk "q1", rfl⟩

/-- C1 (code-bug evidence): `to_dfa` always raises for an NFA with a
non-empty alphabet: the subset loop evaluates `transitions[r][a]` on the
plain dict `transitions = {}` before any entry for `r` exists, raising
`KeyError` already for the empty subset. -/
theorem to_dfa_raises_key_error :
    nfaSubsetEx.to_dfa 9 = some (.error PyError.keyError) := rfl

/-- C8 (code-bug evidence): `_epsilon_closure` calls
`nfa.transition(state, '')`, which raises `KeyError` for any state
without an ε entry, so the ε-closure of a state with no outgoing
ε-transition fails instead of returning `{q}`. -/
theorem epsilon_closure_raises_key_error :
    nfaNoEps.epsilon_closure (State.mk "q0") 5 = some (.error PyError.keyError) := rfl

/-! ### The PTA construction (C6) -/

theorem exbind_ok {ε α β : Type} (a : α) (f : α → Except ε β) :
    (Except.ok a >>= f : Except ε β) = f a := rfl

theorem exmap_ok {ε α β : Type} (a : α) (f : α → β) :
    ((Except.ok a : Except ε α).map f) = .ok (f a) := rfl

theorem mem_foldl_insertSt (news : List State) :
    ∀ (acc : List State) (q : State),
      q ∈ news.foldl (fun acc q => insertSt q acc) acc ↔ q ∈ acc ∨ q ∈ news := by
  induction news with
  | nil => intro acc q; simp
  | cons x xs ih =>
    intro acc q
    rw [List.foldl_cons, ih, mem_insertSt]
    simp only [List.mem_cons]
    tauto

theorem mem_map_mk (l : List String) (q : State) :
    q ∈ l.map State.mk ↔ q.name ∈ l := by
  obtain ⟨nm⟩ := q
  simp [List.mem_map, State.mk.injEq]

theorem self_mem_strPrefixes (w : String) : w ∈ strPrefixes w := by
  simp only [strPrefixes, List.mem_map]
  refine ⟨w.length, by simp, ?_⟩
  obtain ⟨data⟩ := w
  simp [String.length, String.toList]

theorem mem_prefix_set_self {w : String} {samples : List String} (h : w ∈ samples)
    (alpha : List Sym) : w ∈ prefix_set samples alpha := by
  simp only [prefix_set, List.mem_dedup, List.mem_flatMap]
  exact ⟨w, h, self_mem_strPrefixes w⟩

theorem canonTrans_of_nil {d : Automaton} (h : d.transitions = []) :
    CanonTrans d := by
  intro q a t ht
  rw [dlookup, h] at ht
  simp [alook] at ht

theorem canonTrans_add {d d' : Automaton} {q : State} {a : Sym}
    (h : a ∈ d.alphabet)
    (hok : d.add_transition q (State.mk (q.name ++ a)) a = .ok d')
    (hc : CanonTrans d) : CanonTrans d' := by
  intro p b t ht
  by_cases hpb : p = q ∧ b = a
  · obtain ⟨rfl, rfl⟩ := hpb
    rw [dlookup_add_self h hok] at ht
    exact (Option.some.inj ht).symm
  · rw [dlookup_add_other h hok hpb] at ht
    exact hc p b t ht

theorem isSome_dlookup_add {d d' : Automaton} {q1 q2 : State} {a : Sym}
    (h : a ∈ d.alphabet) (hok : d.add_transition q1 q2 a = .ok d') :
    ∀ p b, (dlookup d p b).isSome → (dlookup d' p b).isSome := by
  intro p b hs
  by_cases hpb : p = q1 ∧ b = a
  · obtain ⟨rfl, rfl⟩ := hpb
    rw [dlookup_add_self h hok]
    rfl
  · rw [dlookup_add_other h hok hpb]
    exact hs

theorem ptaFirst_fold (alpha : List Sym) :
    ∀ (ls : List Sym) (acc : Automaton), acc.alphabet = alpha →
      (∀ x ∈ ls, x ∈ alpha) → CanonTrans acc →
      ∃ acc',
        ls.foldlM (fun acc letter =>
            acc.add_transition (State.mk "") (State.mk letter) letter) acc
          = .ok acc'
        ∧ acc'.alphabet = alpha ∧ CanonTrans acc'
        ∧ (∀ p b, (dlookup acc p b).isSome → (dlookup acc' p b).isSome) := by
  intro ls
  induction ls with
  | nil =>
    intro acc ha _ hc
    exact ⟨acc, rfl, ha, hc, fun p b => id⟩
  | cons x xs ih =>
    intro acc ha hx hc
    have hxa : x ∈ acc.alphabet := ha ▸ hx x (List.mem_cons_self _ _)
    have hok := @add_transition_eq acc (State.mk "") (State.mk x) x hxa
    have hval : (State.mk x) = State.mk ((State.mk "").name ++ x) := by simp
    rw [hval] at hok
    have hc' := canonTrans_add hxa hok hc
    have hfields := add_transition_fields hxa hok
    obtain ⟨acc', hfold, ha', hc'', hm⟩ :=
      ih _ (hfields.1.trans ha) (fun y hy => hx y (List.mem_cons_of_mem _ hy)) hc'
    refine ⟨acc', ?_, ha', hc'', ?_⟩
    · rw [List.foldlM_cons]
      rw [hval, hok, exbind_ok]
      exact hfold
    · exact fun p b hs => hm p b (isSome_dlookup_add hxa hok p b hs)

theorem ptaMain_inner (alpha : List Sym) (statesP : List State) (u : State) :
    ∀ (ls : List Sym) (acc : Automaton) (news : List State),
      acc.alphabet = alpha → (∀ x ∈ ls, x ∈ alpha) → CanonTrans acc →
      ∃ acc' news',
        ls.foldlM (fun (p2 : Automaton × List State) a =>
            let ua := State.mk (u.name ++ a)
            let news := if ua ∈ statesP then p2.2 else insertSt ua p2.2
            (p2.1.add_transition u ua a).map fun d => (d, news)) (acc, news)
          = .ok (acc', news')
        ∧ acc'.alphabet = alpha ∧ CanonTrans acc'
        ∧ (∀ p b, (dlookup acc p b).isSome → (dlookup acc' p b).isSome)
        ∧ (∀ x ∈ ls, (dlookup acc' u x).isSome)
        ∧ (∀ q, q ∈ news' ↔ q ∈ news ∨
            ∃ a ∈ ls, q = State.mk (u.name ++ a) ∧ q ∉ statesP) := by
  intro ls
  induction ls with
  | nil =>
    intro acc news ha _ hc
    refine ⟨acc, news, rfl, ha, hc, fun p b => id, by simp, ?_⟩
    intro q
    simp
  | cons x xs ih =>
    intro acc news ha hx hc
    have hxa : x ∈ acc.alphabet := ha ▸ hx x (List.mem_cons_self _ _)
    have hok := @add_transition_eq acc u (State.mk (u.name ++ x)) x hxa
    have hc' := canonTrans_add hxa hok hc
    have hfields := add_transition_fields hxa hok
    obtain ⟨acc', news', hfold, ha', hc'', hm, hcov, hnews⟩ :=
      ih _ (if State.mk (u.name ++ x) ∈ statesP then news
            else insertSt (State.mk (u.name ++ x)) news)
        (hfields.1.trans ha) (fun y hy => hx y (List.mem_cons_of_mem _ hy)) hc'
    refine ⟨acc', news', ?_, ha', hc'', ?_, ?_, ?_⟩
    · rw [List.foldlM_cons]
      show Except.map
            (fun d => (d, if State.mk (u.name ++ x) ∈ statesP then news
                else insertSt (State.mk (u.name ++ x)) news))
            (acc.add_transition u (State.mk (u.name ++ x)) x) >>= _ = _
      rw [hok, exmap_ok, exbind_ok]
      exact hfold
    · exact fun p b hs => hm p b (isSome_dlookup_add hxa hok p b hs)
    · intro y hy
      rcases List.mem_cons.1 hy with rfl | hy'
      · exact hm u y (by rw [dlookup_add_self hxa hok]; rfl)
      · exact hcov y hy'
    · intro q
      rw [hnews q]
      by_cases hmem : State.mk (u.name ++ x) ∈ statesP
      · rw [if_pos hmem]
        constructor
        · rintro (hq | ⟨a, haa, hqa, hnp⟩)
          · exact Or.inl hq
          · exact Or.inr ⟨a, List.mem_cons_of_mem _ haa, hqa, hnp⟩
        · rintro (hq | ⟨a, haa, hqa, hnp⟩)
          · exact Or.inl hq
          · rcases List.mem_cons.1 haa with rfl | haa'
            · exact absurd (hqa ▸ hmem) hnp
            · exact Or.inr ⟨a, haa', hqa, hnp⟩
      · rw [if_neg hmem]
        constructor
        · rintro (hq | ⟨a, haa, hqa, hnp⟩)
          · rcases mem_insertSt.1 hq with rfl | hq'
            · exact Or.inr ⟨x, List.mem_cons_self _ _, rfl, hmem⟩
            · exact Or.inl hq'
          · exact Or.inr ⟨a, List.mem_cons_of_mem _ haa, hqa, hnp⟩
        · rintro (hq | ⟨a, haa, hqa, hnp⟩)
          · exact Or.inl (mem_insertSt.2 (Or.inr hq))
          · rcases List.mem_cons.1 haa with rfl | haa'
            · exact Or.inl (mem_insertSt.2 (Or.inl hqa))
            · exact Or.inr ⟨a, haa', hqa, hnp⟩

theorem ptaMain_fold (alpha : List Sym) (statesP : List State) :
    ∀ (ls : List State) (acc : Automaton) (news : List State),
      acc.alphabet = alpha → CanonTrans acc →
      ∃ acc' news',
        ls.foldlM (fun (p : Automaton × List State) u =>
            alpha.foldlM (fun (p2 : Automaton × List State) a =>
              let ua := State.mk (u.name ++ a)
              let news := if ua ∈ statesP then p2.2 else insertSt ua p2.2
              (p2.1.add_transition u ua a).map fun d => (d, news)) p) (acc, news)
          = .ok (acc', news')
        ∧ acc'.alphabet = alpha ∧ CanonTrans acc'
        ∧ (∀ p b, (dlookup acc p b).isSome → (dlookup acc' p b).isSome)
        ∧ (∀ u ∈ ls, ∀ a ∈ alpha, (dlookup acc' u a).isSome)
        ∧ (∀ q, q ∈ news' ↔ q ∈ news ∨
            ∃ u ∈ ls, ∃ a ∈ alpha, q = State.mk (u.name ++ a) ∧ q ∉ statesP) := by
  intro ls
  induction ls with
  | nil =>
    intro acc news ha hc
    refine ⟨acc, news, rfl, ha, hc, fun p b => id, by simp, ?_⟩
    intro q
    simp
  | cons u us ih =>
    intro acc news ha hc
    obtain ⟨acc1, news1, hfold1, ha1, hc1, hm1, hcov1, hnews1⟩ :=
      ptaMain_inner alpha statesP u alpha acc news ha (fun x hx => hx) hc
    obtain ⟨acc', news', hfold, ha', hc', hm, hcov, hnews⟩ := ih acc1 news1 ha1 hc1
    refine ⟨acc', news', ?_, ha', hc', ?_, ?_, ?_⟩
    · rw [List.foldlM_cons]
      show (alpha.foldlM _ (acc, news)) >>= _ = _
      rw [hfold1, exbind_ok]
      exact hfold
    · exact fun p b hs => hm p b (hm1 p b hs)
    · intro v hv a haa
      rcases List.mem_cons.1 hv with rfl | hv'
      · exact hm v a (hcov1 a haa)
      · exact hcov v hv' a haa
    · intro q
      rw [hnews q, hnews1 q]
      constructor
      · rintro ((hq | ⟨a, haa, hqa, hnp⟩) | ⟨v, hv, a, haa, hqa, hnp⟩)
        · exact Or.inl hq
        · exact Or.inr ⟨u, List.mem_cons_self _ _, a, haa, hqa, hnp⟩
        · exact Or.inr ⟨v, List.mem_cons_of_mem _ hv, a, haa, hqa, hnp⟩
      · rintro (hq | ⟨v, hv, a, haa, hqa, hnp⟩)
        · exact Or.inl (Or.inl hq)
        · rcases List.mem_cons.1 hv with rfl | hv'
          · exact Or.inl (Or.inr ⟨a, haa, hqa, hnp⟩)
          · exact Or.inr ⟨v, hv', a, haa, hqa, hnp⟩

/-- C6 (amended): `build_pta(S⁺, S⁻)` succeeds and returns a DFA whose
states are the prefixes of `S⁺ ∪ S⁻` together with all their one-letter
extensions over the inferred alphabet, with `δ(u, a) = ua` for every `u`
in the prefix set and `a ∈ Σ`, and whose accept (resp. reject) states
are exactly the states named by `S⁺` (resp. `S⁻`). -/
theorem build_pta_characterization (sPlus sMinus : List String) :
    ∃ pta, build_pta sPlus sMinus = .ok pta
      ∧ (∀ q : State,
          q ∈ pta.states ↔
            q.name ∈ prefix_set ((sPlus ++ sMinus).dedup)
                (determine_alphabet ((sPlus ++ sMinus).dedup))
            ∨ ∃ u ∈ prefix_set ((sPlus ++ sMinus).dedup)
                  (determine_alphabet ((sPlus ++ sMinus).dedup)),
                ∃ a ∈ determine_alphabet ((sPlus ++ sMinus).dedup),
                  q.name = u ++ a)
      ∧ (∀ u a,
          u ∈ prefix_set ((sPlus ++ sMinus).dedup)
                (determine_alphabet ((sPlus ++ sMinus).dedup)) →
          a ∈ determine_alphabet ((sPlus ++ sMinus).dedup) →
          dlookup pta (State.mk u) a = some (State.mk (u ++ a)))
      ∧ (∀ q : State, q ∈ pta.acceptStates ↔ q.name ∈ sPlus)
      ∧ (∀ q : State, q ∈ pta.rejectStates ↔ q.name ∈ sMinus) := by
  obtain ⟨pta1, h1, hA1, hC1, hM1⟩ :=
    ptaFirst_fold (determine_alphabet ((sPlus ++ sMinus).dedup))
      (determine_alphabet ((sPlus ++ sMinus).dedup))
      (Automaton.init (determine_alphabet ((sPlus ++ sMinus).dedup)))
      rfl (fun x hx => hx) (canonTrans_of_nil rfl)
  obtain ⟨pta2, news2, h2, hA2, hC2, hM2, hcov, hnews⟩ :=
    ptaMain_fold (determine_alphabet ((sPlus ++ sMinus).dedup))
      ((prefix_set ((sPlus ++ sMinus).dedup)
          (determine_alphabet ((sPlus ++ sMinus).dedup))).map State.mk)
      ((prefix_set ((sPlus ++ sMinus).dedup)
          (determine_alphabet ((sPlus ++ sMinus).dedup))).map State.mk)
      pta1 [] hA1 hC1
  have h2' : ptaMain (determine_alphabet ((sPlus ++ sMinus).dedup))
      ((prefix_set ((sPlus ++ sMinus).dedup)
          (determine_alphabet ((sPlus ++ sMinus).dedup))).map State.mk) pta1
      = .ok (pta2, news2) := h2
  refine ⟨{ pta2 with
      states := news2.foldl (fun acc q => insertSt q acc)
        ((prefix_set ((sPlus ++ sMinus).dedup)
          (determine_alphabet ((sPlus ++ sMinus).dedup))).map State.mk),
      acceptStates := (news2.foldl (fun acc q => insertSt q acc)
        ((prefix_set ((sPlus ++ sMinus).dedup)
          (determine_alphabet ((sPlus ++ sMinus).dedup))).map State.mk)).filter
            fun u => decide (u.name ∈ sPlus),
      rejectStates := (news2.foldl (fun acc q => insertSt q acc)
        ((prefix_set ((sPlus ++ sMinus).dedup)
          (determine_alphabet ((sPlus ++ sMinus).dedup))).map State.mk)).filter
            fun u => decide (u.name ∈ sMinus) }, ?_, ?_, ?_, ?_, ?_⟩
  · simp only [build_pta, h1, h2']
  · intro q
    show q ∈ news2.foldl (fun acc q => insertSt q acc)
        ((prefix_set ((sPlus ++ sMinus).dedup)
          (determine_alphabet ((sPlus ++ sMinus).dedup))).map State.mk) ↔ _
    rw [mem_foldl_insertSt, mem_map_mk, hnews q]
    constructor
    · rintro (h | (h0 | ⟨u, hu, a, ha, rfl, _⟩))
      · exact Or.inl h
      · exact absurd h0 (List.not_mem_nil q)
      · exact Or.inr ⟨u.name, (mem_map_mk _ u).1 hu, a, ha, rfl⟩
    · rintro (h | ⟨u, hu, a, ha, hqn⟩)
      · exact Or.inl h
      · obtain ⟨nm⟩ := q
        simp only at hqn
        subst hqn
        by_cases hmem : (State.mk (u ++ a)) ∈
            ((prefix_set ((sPlus ++ sMinus).dedup)
              (determine_alphabet ((sPlus ++ sMinus).dedup))).map State.mk)
        · exact Or.inl ((mem_map_mk _ _).1 hmem)
        · exact Or.inr (Or.inr ⟨State.mk u, (mem_map_mk _ _).2 hu, a, ha, rfl, hmem⟩)
  · intro u a hu ha
    have hmem : State.mk u ∈
        ((prefix_set ((sPlus ++ sMinus).dedup)
          (determine_alphabet ((sPlus ++ sMinus).dedup))).map State.mk) :=
      (mem_map_mk _ _).2 hu
    have hsome := hcov (State.mk u) hmem a ha
    obtain ⟨t, ht⟩ := Option.isSome_iff_exists.1 hsome
    have hcanon := hC2 (State.mk u) a t ht
    show dlookup pta2 (State.mk u) a = some (State.mk (u ++ a))
    rw [ht, hcanon]
  · intro q
    show q ∈ (news2.foldl (fun acc q => insertSt q acc)
        ((prefix_set ((sPlus ++ sMinus).dedup)
          (determine_alphabet ((sPlus ++ sMinus).dedup))).map State.mk)).filter
        (fun u => decide (u.name ∈ sPlus)) ↔ _
    rw [List.mem_filter]
    constructor
    · rintro ⟨_, hdec⟩
      exact of_decide_eq_true hdec
    · intro hq
      refine ⟨?_, decide_eq_true hq⟩
      rw [mem_foldl_insertSt]
      exact Or.inl ((mem_map_mk _ _).2
        (mem_prefix_set_self (List.mem_dedup.2 (List.mem_append.2 (Or.inl hq))) _))
  · intro q
    show q ∈ (news2.foldl (fun acc q => insertSt q acc)
        ((prefix_set ((sPlus ++ sMinus).dedup)
          (determine_alphabet ((sPlus ++ sMinus).dedup))).map State.mk)).filter
        (fun u => decide (u.name ∈ sMinus)) ↔ _
    rw [List.mem_filter]
    constructor
    · rintro ⟨_, hdec⟩
      exact of_decide_eq_true hdec
    · intro hq
      refine ⟨?_, decide_eq_true hq⟩
      rw [mem_foldl_insertSt]
      exact Or.inl ((mem_map_mk _ _).2
        (mem_prefix_set_self (List.mem_dedup.2 (List.mem_append.2 (Or.inr hq))) _))

/-- C6 counterexample: for `S⁺ = {'a'}`, `S⁻ = {}` the PTA contains the
state `aa`, which is not a prefix of any sample, so the state set is not
exactly the prefix set; and the extension state `aa` has no outgoing
transition, so `δ(u, a) = ua` does not hold for every state. -/
theorem build_pta_cex :
    build_pta ["a"] [] = .ok ptaEx
    ∧ State.mk "aa" ∈ ptaEx.states
    ∧ "aa" ∉ prefix_set ["a"] ["a"]
    ∧ dlookup ptaEx (State.mk "aa") "a" = none :=
  ⟨rfl, by decide, by decide, rfl⟩

/-- Witness for C6's amended theorem at a concrete input. -/
theorem build_pta_characterization_witness :
    dlookup ptaEx (State.mk "a") "a" = some (State.mk "aa") := by
  obtain ⟨pta, hok, _, hb, _, _⟩ := build_pta_characterization ["a"] []
  have hpta : ptaEx = pta := by
    unfold ptaEx
    rw [hok]
  rw [hpta]
  exact hb "a" "a" (by decide) (by decide)

end Inferrer
